import Mathlib

/-!
Verification of the RAGex retrieval pipeline: a shallow embedding of
`app/rag/chunker.py` (smart chunking) and `app/rag/retriever.py` plus the
`generate_hyde_doc` fallback of `app/rag/generator.py`, with theorems about
the chunk quality gate, deduplication, overlap seeding, and the adaptive
retriever's thresholding, confidence and HyDE fallback behaviour.

Modelling conventions:
* Python strings are `List Char` (chunker) or `String` (retriever documents,
  which are never inspected beyond equality).  Character classes (`\s`, `\w`,
  `str.lower`) are modelled on their ASCII fragment; all inputs used in
  concrete theorems are ASCII.
* Python floats are modelled as `ℚ`.  All constants occurring in the code
  (0.05, 0.3, 0.35, 2, thresholds) and all concrete distances used below are
  exactly representable or far enough from every comparison boundary that the
  float and rational comparisons agree.
* Python's `hash(text)` is modelled by `text` itself: equal texts have equal
  hashes, which is the only property the membership check relies on.
* A store call raising is an `Except.error`, which propagates; the generator
  call's outcome is an `Option String` (`none` = client missing or the chat
  call raised; both make `generate_hyde_doc` return the question unchanged).
-/

namespace RAGex

/-! ### Character-level utilities (the `re` idioms used by `chunker.py`) -/

/-- Characters matched by Python's `\s` (ASCII fragment). -/
def isPySpace (c : Char) : Bool :=
  c = ' ' || c = '\t' || c = '\n' || c = '\r' || c = '\x0b' || c = '\x0c'

/-- `re.sub(r'\s+', ' ', text)`: collapse every whitespace run to one space.
`prevWs` records whether the previous character was whitespace. -/
def collapseWs : Bool → List Char → List Char
  | _, [] => []
  | prevWs, c :: cs =>
    if isPySpace c then
      if prevWs then collapseWs true cs else ' ' :: collapseWs true cs
    else c :: collapseWs false cs

/-- Python `str.strip()` (whitespace from both ends). -/
def stripWs (l : List Char) : List Char :=
  ((l.dropWhile isPySpace).reverse.dropWhile isPySpace).reverse

/-- Line 72 of `chunker.py`: `re.sub(r'\s+', ' ', text).strip()`. -/
def normalizeWs (l : List Char) : List Char :=
  stripWs (collapseWs false l)

/-- Sentence-ending punctuation of the split regex. -/
def isSentEnd (c : Char) : Bool :=
  c = '.' || c = '!' || c = '?'

/-- Line 82: `re.split(r'(?<=[.!?])\s+', text)`.  `acc` is the current
fragment, reversed.  The splitter is only ever applied to the output of
`normalizeWs`, where every whitespace run is a single space, so consuming one
whitespace character per boundary is exactly the regex's `\s+`. -/
def splitSentencesAux (acc : List Char) : List Char → List (List Char)
  | [] => [acc.reverse]
  | c :: cs =>
    if isPySpace c && isSentEnd (acc.headD ' ') then
      acc.reverse :: splitSentencesAux [] cs
    else splitSentencesAux (c :: acc) cs

def splitSentences (l : List Char) : List (List Char) :=
  splitSentencesAux [] l

/-- Characters matched by Python's `\w` (ASCII fragment). -/
def isWordChar (c : Char) : Bool :=
  c.isAlphanum || c = '_'

/-- Line 224: `re.findall(r'\b\w+\b', text)`, i.e. the maximal runs of word
characters.  `acc` is the current run, reversed. -/
def wordRunsAux (acc : List Char) : List Char → List (List Char)
  | [] => if acc.isEmpty then [] else [acc.reverse]
  | c :: cs =>
    if isWordChar c then wordRunsAux (c :: acc) cs
    else if acc.isEmpty then wordRunsAux [] cs
    else acc.reverse :: wordRunsAux [] cs

def findWords (l : List Char) : List (List Char) :=
  wordRunsAux [] l

/-- Python `" ".join(strs)`. -/
def joinSp : List (List Char) → List Char
  | [] => []
  | [s] => s
  | s :: rest => s ++ ' ' :: joinSp rest

/-- Python substring test `needle in hay`. -/
def containsSub (needle : List Char) : List Char → Bool
  | [] => needle.isEmpty
  | c :: cs => needle.isPrefixOf (c :: cs) || containsSub needle cs

/-- Sum of the lengths of a list of strings (the chunker's character
accounting, which does not count the joining spaces). -/
def sumLens (l : List (List Char)) : Nat :=
  (l.map List.length).sum

/-! ### Configuration (`app/core/config.py`) -/

/-- The configuration values read by the chunker and the retriever. -/
structure Settings where
  CHUNK_SIZE : Nat
  CHUNK_OVERLAP : Nat
  DISTANCE_THRESHOLD : ℚ
  TOP_K_RESULTS : Nat

/-- The defaults declared in `config.py`. -/
def defaultSettings : Settings :=
  ⟨1000, 200, 3/4, 10⟩

/-! ### The chunker (`app/rag/chunker.py`) -/

/-- The page dicts produced by the crawler. -/
structure Page where
  url : String
  text : List Char
  depth : Int

/-- The chunk dicts produced by `chunk_pages_smart`. -/
structure Chunk where
  id : String
  text : List Char
  source : String
  depth : Int
deriving DecidableEq

/-- The `blacklist_phrases` list (lines 43–53). -/
def blacklist_phrases : List (List Char) :=
  [ "all rights reserved".toList
  , "privacy policy".toList
  , "cookie policy".toList
  , "terms of use".toList
  , "terms of service".toList
  , "subscribe to newsletter".toList
  , "follow us on".toList
  , "sign up for".toList
  , "copyright ©".toList ]

/-- `_is_valid_chunk` (lines 170–242).  The verdict is returned together with
the updated `seen_hashes` set (the Python function mutates it in place; note
the hash is recorded *before* the word-count and density checks, exactly as in
the source).  The two float-ratio tests are written as exact integer
comparisons: for `0 < t`, `p / t > 3/10 ↔ 3 * t < 10 * p` and
`s / w < 2 ↔ s < 2 * w` (proved in `phrase_ratio_iff` and
`avg_word_len_iff` below). -/
def is_valid_chunk (text : List Char) (blacklist : List (List Char))
    (seen : List (List Char)) : Bool × List (List Char) :=
  if text.length < 50 then (false, seen)
  else
    let textLower := text.map Char.toLower
    if blacklist.any (fun phrase =>
        containsSub phrase textLower && decide (3 * text.length < 10 * phrase.length)) then
      (false, seen)
    else if text ∈ seen then (false, seen)
    else
      let seen' := text :: seen
      let words := findWords text
      if words.length < 10 then (false, seen')
      else if (words.map List.length).sum < 2 * max words.length 1 then (false, seen')
      else (true, seen')

/-- The in-flight state of the sentence-packing loop (lines 92–95):
`current_chunk_sentences`, `current_chunk_length`, `chunk_id`, the shared
`seen_hashes` and the accumulated `chunks` list. -/
structure PackState where
  cur : List (List Char)
  curLen : Nat
  chunkId : Nat
  seen : List (List Char)
  chunks : List Chunk

/-- The backward walk of lines 122–130: take trailing sentences until the
accumulated length reaches the target.  The first argument list is the
already-reversed sentence list; `ov`/`len` accumulate the overlap. -/
def overlapWalk (target : Nat) : List (List Char) → List (List Char) → Nat →
    List (List Char) × Nat
  | [], ov, len => (ov, len)
  | s :: rest, ov, len =>
    if target ≤ len then (ov, len)
    else overlapWalk target rest (s :: ov) (len + s.length)

/-- Lines 122–134: the trailing overlap seeded into the next chunk. -/
def buildOverlap (target : Nat) (sentences : List (List Char)) :
    List (List Char) × Nat :=
  overlapWalk target sentences.reverse [] 0

/-- One iteration of the `for sentence in sentences` loop (lines 97–138). -/
def stepSentence (cfg : Settings) (url : String) (depth : Int) (st : PackState)
    (sentence : List Char) : PackState :=
  let sLen := sentence.length
  if cfg.CHUNK_SIZE < st.curLen + sLen ∧ st.cur ≠ [] then
    let chunkText := joinSp st.cur
    let vr := is_valid_chunk chunkText blacklist_phrases st.seen
    let st' : PackState :=
      if vr.1 then
        ⟨st.cur, st.curLen, st.chunkId + 1, vr.2,
          st.chunks ++ [⟨url ++ "::chunk_" ++ toString st.chunkId, chunkText, url, depth⟩]⟩
      else ⟨st.cur, st.curLen, st.chunkId, vr.2, st.chunks⟩
    let ov := buildOverlap cfg.CHUNK_OVERLAP st.cur
    ⟨ov.1 ++ [sentence], ov.2 + sLen, st'.chunkId, st'.seen, st'.chunks⟩
  else
    ⟨st.cur ++ [sentence], st.curLen + sLen, st.chunkId, st.seen, st.chunks⟩

/-- The cleaned sentence list the packing loop runs on (lines 72–89). -/
def pageSentences (page : Page) : List (List Char) :=
  ((splitSentences (normalizeWs page.text)).map stripWs).filter (fun s => !s.isEmpty)

/-- One iteration of the `for page in pages` loop (lines 57–159).  `acc` is
the pair (chunks so far, seen hashes so far).  The per-page `try/except` of
the source can never fire in this pure model, and `page_chunk_count` is only
logged, so both are omitted. -/
def processPage (cfg : Settings) (acc : List Chunk × List (List Char))
    (page : Page) : List Chunk × List (List Char) :=
  if page.text = [] then acc
  else
    let text := normalizeWs page.text
    if text.length < 50 then acc
    else
      let sentences := ((splitSentences text).map stripWs).filter (fun s => !s.isEmpty)
      if sentences = [] then acc
      else
        let st := sentences.foldl (stepSentence cfg page.url page.depth)
          ⟨[], 0, 0, acc.2, acc.1⟩
        if st.cur ≠ [] then
          let chunkText := joinSp st.cur
          let vr := is_valid_chunk chunkText blacklist_phrases st.seen
          if vr.1 then
            (st.chunks ++
              [⟨page.url ++ "::chunk_" ++ toString st.chunkId, chunkText,
                page.url, page.depth⟩], vr.2)
          else (st.chunks, vr.2)
        else (st.chunks, st.seen)

/-- `chunk_pages_smart(pages)` (lines 15–167). -/
def chunk_pages_smart (cfg : Settings) (pages : List Page) : List Chunk :=
  (pages.foldl (processPage cfg) ([], [])).1

/-! ### The closed sentence groups of the packing loop

`closedGroups` replays the packing loop of `chunk_pages_smart` recording every
closed sentence group, whether or not it passes the quality gate; the emitted
chunks are exactly the groups that pass, so their texts form a sublist of the
joined groups (proved below).  This is the companion definition used to state
what the overlap seeding guarantees. -/

structure GroupState where
  groups : List (List (List Char))
  cur : List (List Char)
  curLen : Nat

/-- `stepSentence` with the validity gate erased: it records the closed group
instead of (conditionally) emitting a chunk. -/
def groupStep (cfg : Settings) (st : GroupState) (sentence : List Char) :
    GroupState :=
  if cfg.CHUNK_SIZE < st.curLen + sentence.length ∧ st.cur ≠ [] then
    let ov := buildOverlap cfg.CHUNK_OVERLAP st.cur
    ⟨st.groups ++ [st.cur], ov.1 ++ [sentence], ov.2 + sentence.length⟩
  else ⟨st.groups, st.cur ++ [sentence], st.curLen + sentence.length⟩

/-- All sentence groups closed by the packing loop on one page, including the
final flushed group. -/
def closedGroups (cfg : Settings) (sentences : List (List Char)) :
    List (List (List Char)) :=
  let st := sentences.foldl (groupStep cfg) ⟨[], [], 0⟩
  if st.cur ≠ [] then st.groups ++ [st.cur] else st.groups

/-- How one closed group follows its predecessor: it is the predecessor's
trailing overlap extended by at least the triggering sentence. -/
def overlapRel (target : Nat) (g g' : List (List Char)) : Prop :=
  ∃ rest, rest ≠ [] ∧ g' = (buildOverlap target g).1 ++ rest

/-! ### The retriever (`app/rag/retriever.py`) -/

/-- The dict returned by `store.query`: parallel nested lists (the outer
lists have length 1 for the single-query interface). -/
structure StoreResponse where
  documents : List (List String)
  distances : List (List ℚ)
  metadatas : List (List (Option String))

/-- The per-candidate dicts built by `process_results` (`text`, `source`,
`dist`); `source` is `meta.get("source")`. -/
structure RetrievalItem where
  text : String
  source : Option String
  dist : ℚ
deriving DecidableEq

/-- The dict returned by `retrieve`.  The happy path (lines 77–83) carries
all five keys; the empty path (lines 69–75) omits `"sources"`, modelled by
`sources = none`. -/
structure RetrievalResult where
  relevant : Bool
  contexts : List String
  context_sources : List (Option String)
  sources : Option (List String)
  confidence : ℚ
deriving DecidableEq

/-- Python `str.split()` (no separator): split on whitespace runs, dropping
empty fragments.  `acc` is the current fragment, reversed. -/
def splitWsAux (acc : List Char) : List Char → List (List Char)
  | [] => if acc.isEmpty then [] else [acc.reverse]
  | c :: cs =>
    if isPySpace c then
      if acc.isEmpty then splitWsAux [] cs else acc.reverse :: splitWsAux [] cs
    else splitWsAux (c :: acc) cs

def splitWs (s : String) : List (List Char) :=
  splitWsAux [] s.toList

/-- Lines 17–18: the base distance threshold, relaxed by 0.05 for queries of
fewer than 4 whitespace-separated tokens. -/
def effectiveThreshold (cfg : Settings) (query : String) : ℚ :=
  if (splitWs query).length < 4 then cfg.DISTANCE_THRESHOLD - 1/20
  else cfg.DISTANCE_THRESHOLD

/-- The `process_results` helper (lines 25–43).  `zip` truncates to the
shortest list exactly as Python's `zip` does; a malformed response whose
`documents` is non-empty while `distances`/`metadatas` is `[]` is answered
with the empty head rather than the `IndexError` the source would raise. -/
def process_results (summary_mode : Bool) (threshold : ℚ) (raw : StoreResponse) :
    List RetrievalItem :=
  let docs := raw.documents.headD []
  if docs.isEmpty then []
  else
    let dists := raw.distances.headD []
    let metas := raw.metadatas.headD []
    ((docs.zip dists).zip metas).filterMap fun it =>
      if summary_mode = true ∨ it.1.2 < threshold then some ⟨it.1.1, it.2, it.1.2⟩
      else none

/-- `generate_hyde_doc` (`generator.py` lines 55–78): `llm` is the outcome of
the external chat call; the source catches every failure (and the missing
client) and returns the question unchanged, so the modelled function is
total. -/
def generate_hyde_doc (llm : Option String) (question : String) : String :=
  match llm with
  | some answer => answer
  | none => question

/-- `best_confidence = 1 - valid[0]["dist"] if valid else 0` (line 49). -/
def bestConfidence (valid : List RetrievalItem) : ℚ :=
  match valid.head? with
  | some v => 1 - v.dist
  | none => 0

/-- Lines 15–67 of `retrieve`: the final candidate list.  The store is a
function of (query text, `n_results`); `.error` models the store call
raising, which propagates to the caller. -/
def retrieveValid (cfg : Settings)
    (store : String → Nat → Except String StoreResponse)
    (llm : Option String) (query : String) (summary_mode : Bool) :
    Except String (List RetrievalItem) :=
  let threshold := effectiveThreshold cfg query
  let k_results := if summary_mode then cfg.TOP_K_RESULTS + 5 else cfg.TOP_K_RESULTS
  match store query k_results with
  | .error e => .error e
  | .ok results =>
    let valid := process_results summary_mode threshold results
    if summary_mode = false ∧ (valid = [] ∨ bestConfidence valid < 7/20) then
      match store (generate_hyde_doc llm query) k_results with
      | .error e => .error e
      | .ok hyde_results =>
        let hyde_valid := process_results summary_mode threshold hyde_results
        let merged := valid ++
          hyde_valid.filter (fun item => decide (item.text ∉ valid.map (fun v => v.text)))
        .ok (merged.mergeSort (fun a b => decide (a.dist ≤ b.dist)))
    else .ok valid

/-- Lines 69–83 of `retrieve`: wrap the final candidate list into the result
dict.  The `sources` entry of the happy path is a Python set of the non-null
sources; it is modelled as the deduplicated list (first occurrences), set
equality being all the claims use. -/
def retrieve (cfg : Settings)
    (store : String → Nat → Except String StoreResponse)
    (llm : Option String) (query : String) (summary_mode : Bool) :
    Except String RetrievalResult :=
  match retrieveValid cfg store llm query summary_mode with
  | .error e => .error e
  | .ok valid =>
    match valid.head? with
    | none => .ok ⟨false, [], [], none, 0⟩
    | some v₀ =>
      .ok ⟨true, valid.map (fun v => v.text), valid.map (fun v => v.source),
        some ((valid.filterMap (fun v => v.source)).dedup), 1 - v₀.dist⟩

/-! ### Concrete inputs used by the witnesses and counterexamples -/

/-- A default chunk for `List.getD` / `List.headD`. -/
def dummyChunk : Chunk := ⟨"", [], "", 0⟩

def wordChars : List Char := ['w', 'o', 'r', 'd']

/-- `n` copies of "word" joined by single spaces: `4 * n + (n - 1)` characters. -/
def mkWords (n : Nat) : List Char := joinSp (List.replicate n wordChars)

/-- A 125-character sentence (25 words and a final period). -/
def c4A : List Char := mkWords 25 ++ ['.']

/-- A 900-character sentence (180 words and a final period). -/
def c4B : List Char := mkWords 180 ++ ['.']

/-- A page whose two sentences pack into two chunks whose shared sentence
(`c4A`) is 125 < 200 = `CHUNK_OVERLAP` characters long. -/
def c4Page : Page := ⟨"https://ex.com/a", c4A ++ ' ' :: c4B, 0⟩

/-- A page that is a single 1124-character sentence (no `.`/`!`/`?` at all). -/
def c10PageA : Page := ⟨"https://ex.com/b", mkWords 225, 0⟩

/-- A ten-character sentence ending in a period. -/
def sent10 : List Char := ['a', 'b', 'c', 'd', 'e', 'f', 'g', 'h', '2', '.']

/-- A page of 100 ten-character sentences: the loop counts 1000 = `CHUNK_SIZE`
characters of sentences, but the joined chunk text also carries 99 spaces. -/
def c10PageB : Page := ⟨"https://ex.com/c", joinSp (List.replicate 100 sent10), 0⟩

/-- The first chunk the default configuration produces for `c10PageA`. -/
def c6Chunk : Chunk := (chunk_pages_smart defaultSettings [c10PageA]).headD dummyChunk

/-- Claim C4 as stated, as a decidable check: chunk `next` begins with whole
trailing sentences of chunk `prev` whose accumulated length is at least
`target` (`prev`'s sentences are recovered by the pipeline's own sentence
splitter; the chunk texts are already whitespace-normalized). -/
def overlapClaimB (target : Nat) (prev next : Chunk) : Bool :=
  (((splitSentences prev.text).map stripWs).filter (fun s => !s.isEmpty)).tails.any
    fun suf =>
      !suf.isEmpty && (joinSp suf).isPrefixOf next.text && decide (target ≤ sumLens suf)

/-- A store answering every query with two documents, one below and one above
the relaxed threshold 0.70. -/
def c8Resp : StoreResponse := ⟨[["d1", "d2"]], [[3/5, 4/5]], [[some "s1", some "s2"]]⟩

def c8Store : String → Nat → Except String StoreResponse := fun _ _ => .ok c8Resp

/-- A summary-mode store response whose single distance 1.5 exceeds 1. -/
def c1Resp : StoreResponse := ⟨[["doc"]], [[3/2]], [[some "s"]]⟩

def c1Store : String → Nat → Except String StoreResponse := fun _ _ => .ok c1Resp

/-- A response with one accepted document at distance 1/2 (no fallback). -/
def c1wResp : StoreResponse := ⟨[["da"]], [[1/2]], [[some "sa"]]⟩

def c1wStore : String → Nat → Except String StoreResponse := fun _ _ => .ok c1wResp

/-- A store whose distances are NOT ascending: the retriever, which trusts
the store's native ranking when no fallback merge occurs, reports confidence
from the first accepted item, not from the minimum. -/
def c2Resp : StoreResponse := ⟨[["d1", "d2"]], [[3/5, 1/5]], [[some "s1", some "s2"]]⟩

def c2Store : String → Nat → Except String StoreResponse := fun _ _ => .ok c2Resp

/-- A store with ascending distances, both below the base threshold. -/
def c2wResp : StoreResponse := ⟨[["d1", "d2"]], [[3/5, 7/10]], [[some "s1", some "s2"]]⟩

def c2wStore : String → Nat → Except String StoreResponse := fun _ _ => .ok c2wResp

/-- A summary-mode store response whose two distances 2 and 1.5 both exceed
every configured threshold. -/
def c3Resp : StoreResponse := ⟨[["p", "q"]], [[2, 3/2]], [[some "u", none]]⟩

def c3Store : String → Nat → Except String StoreResponse := fun _ _ => .ok c3Resp

/-- A store returning no results at all. -/
def c5Resp : StoreResponse := ⟨[[]], [[]], [[]]⟩

def c5Store : String → Nat → Except String StoreResponse := fun _ _ => .ok c5Resp

/-- A store whose single document sits at distance 0.70: accepted (below the
base threshold 0.75) but with confidence 0.30 < 0.35, so HyDE triggers. -/
def c9Resp : StoreResponse := ⟨[["dx"]], [[7/10]], [[some "sx"]]⟩

def c9Store : String → Nat → Except String StoreResponse := fun _ _ => .ok c9Resp

/-! ### Auxiliary predicates used by the theorems -/

/-- The three quality conditions of claim C6, in the integer form checked by
`is_valid_chunk`. -/
def chunkQuality (t : List Char) : Prop :=
  50 ≤ t.length ∧ 10 ≤ (findWords t).length ∧
    2 * (findWords t).length ≤ ((findWords t).map List.length).sum

/-- The loop invariant behind deduplication: every emitted chunk's text has
been recorded in `seen_hashes`, and the emitted texts are pairwise distinct. -/
def ChunkInv (chunks : List Chunk) (seen : List (List Char)) : Prop :=
  (∀ c ∈ chunks, c.text ∈ seen) ∧ (chunks.map fun c => c.text).Nodup

end RAGex

set_option maxRecDepth 400000

namespace RAGex

/-! ### Theorems -/

/-- For positive text length, the integer test of `is_valid_chunk` agrees
with the source's `len(phrase)/len(text) > 0.3`. -/
theorem phrase_ratio_iff (p t : Nat) (ht : 0 < t) :
    ((3 : ℚ)/10 < (p : ℚ) / (t : ℚ)) ↔ 3 * t < 10 * p := by
  rw [div_lt_div_iff (by norm_num) (by exact_mod_cast ht)]
  constructor
  · intro h
    have h' : ((3 * t : Nat) : ℚ) < ((10 * p : Nat) : ℚ) := by push_cast; linarith
    exact_mod_cast h'
  · intro h
    have h' : ((3 * t : Nat) : ℚ) < ((10 * p : Nat) : ℚ) := by exact_mod_cast h
    push_cast at h'
    linarith

/-- For positive word count, the integer test of `is_valid_chunk` agrees with
the source's `avg_word_length < 2`. -/
theorem avg_word_len_iff (s w : Nat) (hw : 0 < w) :
    ((s : ℚ) / (w : ℚ) < 2) ↔ s < 2 * w := by
  rw [div_lt_iff (by exact_mod_cast hw)]
  constructor
  · intro h
    have h' : ((s : Nat) : ℚ) < ((2 * w : Nat) : ℚ) := by push_cast; linarith
    exact_mod_cast h'
  · intro h
    have h' : ((s : Nat) : ℚ) < ((2 * w : Nat) : ℚ) := by exact_mod_cast h
    push_cast at h'
    linarith

/-- A `true` verdict of `is_valid_chunk` certifies the quality conditions. -/
theorem valid_true_quality {t : List Char} {bl seen : List (List Char)}
    (h : (is_valid_chunk t bl seen).1 = true) : chunkQuality t := by
  simp only [is_valid_chunk] at h
  split_ifs at h with h1 h2 h3 h4 h5 <;> simp_all
  refine ⟨by omega, by omega, ?_⟩
  rw [Nat.max_eq_left (by omega)] at h5
  omega

/-- `is_valid_chunk` only ever grows the `seen_hashes` set. -/
theorem valid_seen_mono {t : List Char} {bl seen : List (List Char)} :
    ∀ x ∈ seen, x ∈ (is_valid_chunk t bl seen).2 := by
  intro x hx
  simp only [is_valid_chunk]
  split_ifs <;> simp [hx]

/-- A `true` verdict means the text had not been seen before the call. -/
theorem valid_true_not_seen {t : List Char} {bl seen : List (List Char)}
    (h : (is_valid_chunk t bl seen).1 = true) : t ∉ seen := by
  simp only [is_valid_chunk] at h
  split_ifs at h with h1 h2 h3 h4 h5 <;> simp_all

/-- A `true` verdict records the text in the returned `seen_hashes` set. -/
theorem valid_true_mem_seen {t : List Char} {bl seen : List (List Char)}
    (h : (is_valid_chunk t bl seen).1 = true) : t ∈ (is_valid_chunk t bl seen).2 := by
  simp only [is_valid_chunk] at h ⊢
  split_ifs at h ⊢ with h1 h2 h3 h4 h5 <;> simp_all

/-- Every chunk present after a loop step was already present or passed the
quality gate. -/
theorem stepSentence_quality {cfg : Settings} {url : String} {depth : Int}
    {st : PackState} {s : List Char} {c : Chunk}
    (hc : c ∈ (stepSentence cfg url depth st s).chunks) :
    c ∈ st.chunks ∨ chunkQuality c.text := by
  simp only [stepSentence] at hc
  split at hc
  · split at hc
    · rcases List.mem_append.1 hc with h | h
      · exact Or.inl h
      · rcases List.mem_singleton.1 h with rfl
        rename_i hv
        exact Or.inr (valid_true_quality hv)
    · exact Or.inl hc
  · exact Or.inl hc

/-- `stepSentence_quality` lifted through the sentence fold. -/
theorem foldlStep_quality (cfg : Settings) (url : String) (depth : Int) :
    ∀ (sents : List (List Char)) (st : PackState) (c : Chunk),
      c ∈ (sents.foldl (stepSentence cfg url depth) st).chunks →
      c ∈ st.chunks ∨ chunkQuality c.text := by
  intro sents
  induction sents with
  | nil => exact fun st c hc => Or.inl hc
  | cons s rest ih =>
    intro st c hc
    rcases ih (stepSentence cfg url depth st s) c hc with h | h
    · exact stepSentence_quality h
    · exact Or.inr h

/-- Every chunk `processPage` adds passed the quality gate. -/
theorem processPage_quality {cfg : Settings} {acc : List Chunk × List (List Char)}
    {page : Page} {c : Chunk} (hc : c ∈ (processPage cfg acc page).1) :
    c ∈ acc.1 ∨ chunkQuality c.text := by
  simp only [processPage] at hc
  split at hc
  · exact Or.inl hc
  · split at hc
    · exact Or.inl hc
    · split at hc
      · exact Or.inl hc
      · split at hc
        · split at hc
          · rcases List.mem_append.1 hc with h | h
            · exact foldlStep_quality cfg page.url page.depth _ _ c h
            · rcases List.mem_singleton.1 h with rfl
              rename_i hv
              exact Or.inr (valid_true_quality hv)
          · exact foldlStep_quality cfg page.url page.depth _ _ c hc
        · exact foldlStep_quality cfg page.url page.depth _ _ c hc

/-- `processPage_quality` lifted through the page fold. -/
theorem foldlPages_quality (cfg : Settings) :
    ∀ (pages : List Page) (acc : List Chunk × List (List Char)) (c : Chunk),
      c ∈ (pages.foldl (processPage cfg) acc).1 →
      c ∈ acc.1 ∨ chunkQuality c.text := by
  intro pages
  induction pages with
  | nil => exact fun acc c hc => Or.inl hc
  | cons p rest ih =>
    intro acc c hc
    rcases ih (processPage cfg acc p) c hc with h | h
    · exact processPage_quality h
    · exact Or.inr h

/-- C6: every chunk emitted by `chunk_pages_smart` has text length at least
50, at least 10 word tokens (maximal `\w` runs), and average word length at
least 2. -/
theorem c6_chunk_quality (cfg : Settings) (pages : List Page) (c : Chunk)
    (hc : c ∈ chunk_pages_smart cfg pages) :
    50 ≤ c.text.length ∧ 10 ≤ (findWords c.text).length ∧
      (2 : ℚ) ≤ ((((findWords c.text).map List.length).sum : ℚ) /
        ((findWords c.text).length : ℚ)) := by
  have h := foldlPages_quality cfg pages ([], []) c hc
  simp only [List.not_mem_nil, false_or] at h
  obtain ⟨h1, h2, h3⟩ := h
  refine ⟨h1, h2, ?_⟩
  have hw : (0 : ℚ) < ((findWords c.text).length : ℚ) := by
    exact_mod_cast Nat.lt_of_lt_of_le (by norm_num) h2
  rw [le_div_iff hw]
  exact_mod_cast h3

/-- C6 witness: the 1124-character chunk produced from `c10PageA`. -/
theorem c6_witness :
    50 ≤ c6Chunk.text.length ∧ 10 ≤ (findWords c6Chunk.text).length ∧
      (2 : ℚ) ≤ ((((findWords c6Chunk.text).map List.length).sum : ℚ) /
        ((findWords c6Chunk.text).length : ℚ)) :=
  c6_chunk_quality defaultSettings [c10PageA] c6Chunk (by decide)

/-- One loop step preserves the deduplication invariant. -/
theorem stepSentence_inv {cfg : Settings} {url : String} {depth : Int}
    {st : PackState} {s : List Char} (h : ChunkInv st.chunks st.seen) :
    ChunkInv (stepSentence cfg url depth st s).chunks (stepSentence cfg url depth st s).seen := by
  obtain ⟨hmem, hnd⟩ := h
  simp only [stepSentence]
  split
  · split
    · rename_i hv
      refine ⟨?_, ?_⟩
      · intro c hc
        rcases List.mem_append.1 hc with h' | h'
        · exact valid_seen_mono _ (hmem c h')
        · rcases List.mem_singleton.1 h' with rfl
          exact valid_true_mem_seen hv
      · rw [List.map_append]
        refine List.Nodup.append hnd (List.nodup_singleton _) ?_
        intro x hx hy
        rcases List.mem_singleton.1 hy with rfl
        rcases List.mem_map.1 hx with ⟨c, hcmem, hctext⟩
        have he : c.text = joinSp st.cur := hctext
        exact valid_true_not_seen hv (he ▸ hmem c hcmem)
    · exact ⟨fun c hc => valid_seen_mono _ (hmem c hc), hnd⟩
  · exact ⟨hmem, hnd⟩

/-- `stepSentence_inv` lifted through the sentence fold. -/
theorem foldlStep_inv (cfg : Settings) (url : String) (depth : Int) :
    ∀ (sents : List (List Char)) (st : PackState), ChunkInv st.chunks st.seen →
      ChunkInv (sents.foldl (stepSentence cfg url depth) st).chunks
        (sents.foldl (stepSentence cfg url depth) st).seen := by
  intro sents
  induction sents with
  | nil => exact fun st h => h
  | cons s rest ih => exact fun st h => ih _ (stepSentence_inv h)

/-- `processPage` preserves the deduplication invariant. -/
theorem processPage_inv {cfg : Settings} {acc : List Chunk × List (List Char)}
    {page : Page} (h : ChunkInv acc.1 acc.2) :
    ChunkInv (processPage cfg acc page).1 (processPage cfg acc page).2 := by
  simp only [processPage]
  split
  · exact h
  · split
    · exact h
    · split
      · exact h
      · have hst := foldlStep_inv cfg page.url page.depth
          (((splitSentences (normalizeWs page.text)).map stripWs).filter fun s => !s.isEmpty)
          (⟨[], 0, 0, acc.2, acc.1⟩ : PackState) h
        obtain ⟨hmem, hnd⟩ := hst
        split
        · split
          · rename_i hv
            refine ⟨?_, ?_⟩
            · intro c hc
              rcases List.mem_append.1 hc with h' | h'
              · exact valid_seen_mono _ (hmem c h')
              · rcases List.mem_singleton.1 h' with rfl
                exact valid_true_mem_seen hv
            · rw [List.map_append]
              refine List.Nodup.append hnd (List.nodup_singleton _) ?_
              intro x hx hy
              rcases List.mem_singleton.1 hy with rfl
              rcases List.mem_map.1 hx with ⟨c, hcmem, hctext⟩
              have he : c.text = joinSp _ := hctext
              exact valid_true_not_seen hv (he ▸ hmem c hcmem)
          · exact ⟨fun c hc => valid_seen_mono _ (hmem c hc), hnd⟩
        · exact ⟨hmem, hnd⟩

/-- `processPage_inv` lifted through the page fold. -/
theorem foldlPages_inv (cfg : Settings) :
    ∀ (pages : List Page) (acc : List Chunk × List (List Char)),
      ChunkInv acc.1 acc.2 →
      ChunkInv (pages.foldl (processPage cfg) acc).1
        (pages.foldl (processPage cfg) acc).2 := by
  intro pages
  induction pages with
  | nil => exact fun acc h => h
  | cons p rest ih => exact fun acc h => ih _ (processPage_inv h)

/-- C7: no two chunks emitted by a single `chunk_pages_smart` run have the
same (normalized) text — the `seen_hashes` membership check is shared across
the whole run, not reset per page. -/
theorem c7_no_duplicate_chunks (cfg : Settings) (pages : List Page) :
    ((chunk_pages_smart cfg pages).map fun c => c.text).Nodup :=
  (foldlPages_inv cfg pages ([], []) ⟨by simp, by simp⟩).2

theorem sumLens_reverse (l : List (List Char)) : sumLens l.reverse = sumLens l := by
  simp [sumLens, List.map_reverse, List.sum_reverse]

/-- What the backward walk computes: it consumes a prefix `pre` of the
reversed sentence list, stopping once the target is reached or the sentences
run out. -/
theorem overlapWalk_spec (target : Nat) :
    ∀ (rl ov : List (List Char)) (len : Nat),
      ∃ pre, pre <+: rl ∧
        (overlapWalk target rl ov len).1 = pre.reverse ++ ov ∧
        (overlapWalk target rl ov len).2 = len + sumLens pre ∧
        (target ≤ (overlapWalk target rl ov len).2 ∨ pre = rl) := by
  intro rl
  induction rl with
  | nil =>
    intro ov len
    exact ⟨[], ⟨[], rfl⟩, by simp [overlapWalk], by simp [overlapWalk, sumLens], Or.inr rfl⟩
  | cons s rest ih =>
    intro ov len
    by_cases h : target ≤ len
    · exact ⟨[], ⟨s :: rest, rfl⟩, by simp [overlapWalk, h],
        by simp [overlapWalk, h, sumLens], Or.inl (by simp [overlapWalk, h])⟩
    · obtain ⟨pre, ⟨t, ht⟩, h1, h2, h3⟩ := ih (s :: ov) (len + s.length)
      refine ⟨s :: pre, ⟨t, by rw [List.cons_append, ht]⟩, ?_, ?_, ?_⟩
      · rw [show overlapWalk target (s :: rest) ov len =
            overlapWalk target rest (s :: ov) (len + s.length) from by
              simp [overlapWalk, h], h1]
        simp
      · rw [show overlapWalk target (s :: rest) ov len =
            overlapWalk target rest (s :: ov) (len + s.length) from by
              simp [overlapWalk, h], h2]
        simp [sumLens]
        omega
      · rw [show overlapWalk target (s :: rest) ov len =
            overlapWalk target rest (s :: ov) (len + s.length) from by
              simp [overlapWalk, h]]
        rcases h3 with h' | h'
        · exact Or.inl h'
        · exact Or.inr (by rw [h'])

/-- The trailing overlap is a suffix of the closed sentence group; its
accumulated length is `overlap_length`, and it reaches at least
`min CHUNK_OVERLAP (total sentence length)`. -/
theorem buildOverlap_spec (target : Nat) (g : List (List Char)) :
    (buildOverlap target g).1 <:+ g ∧
    (buildOverlap target g).2 = sumLens (buildOverlap target g).1 ∧
    min target (sumLens g) ≤ (buildOverlap target g).2 := by
  obtain ⟨pre, ⟨t, ht⟩, h1, h2, h3⟩ := overlapWalk_spec target g.reverse [] 0
  refine ⟨?_, ?_, ?_⟩
  · unfold buildOverlap
    rw [h1, List.append_nil]
    refine ⟨t.reverse, ?_⟩
    rw [← List.reverse_append, ht, List.reverse_reverse]
  · unfold buildOverlap
    rw [h1, h2, List.append_nil, sumLens_reverse]
    omega
  · unfold buildOverlap
    rcases h3 with h' | h'
    · exact le_trans (min_le_left _ _) h'
    · rw [h2, h', sumLens_reverse]
      simpa using min_le_right target (sumLens g)

theorem joinSp_cons_cons (x y : List Char) (l : List (List Char)) :
    joinSp (x :: y :: l) = x ++ ' ' :: joinSp (y :: l) := rfl

/-- Joining a concatenation of two non-empty sentence lists splits on the
separating space. -/
theorem joinSp_append : ∀ {a b : List (List Char)}, a ≠ [] → b ≠ [] →
    joinSp (a ++ b) = joinSp a ++ ' ' :: joinSp b := by
  intro a
  induction a with
  | nil => intro b ha _; cases ha rfl
  | cons x a' ih =>
    intro b _ hb
    cases a' with
    | nil =>
      cases b with
      | nil => cases hb rfl
      | cons y b' => simp [joinSp]
    | cons z a'' =>
      have h' := ih (by simp) hb
      rw [List.cons_append] at h'
      show joinSp (x :: (z :: (a'' ++ b))) = joinSp (x :: z :: a'') ++ ' ' :: joinSp b
      rw [joinSp_cons_cons, h', joinSp_cons_cons]
      simp

/-- Appending an element related to the last link extends a `Chain'`. -/
theorem chain'_concat_of {α : Type} {R : α → α → Prop} {l : List α} {b c : α}
    (h : List.Chain' R (l ++ [b])) (hbc : R b c) :
    List.Chain' R ((l ++ [b]) ++ [c]) := by
  refine List.Chain'.append h (List.chain'_singleton c) ?_
  intro x hx y hy
  rw [List.getLast?_concat, Option.mem_def, Option.some_inj] at hx
  rw [List.head?_cons, Option.mem_def, Option.some_inj] at hy
  subst hx; subst hy
  exact hbc

/-- Replacing the last element of a `Chain'` by one that every predecessor
still relates to. -/
theorem chain'_concat_mono {α : Type} {R : α → α → Prop} {l : List α} {b b' : α}
    (h : List.Chain' R (l ++ [b])) (himp : ∀ a, R a b → R a b') :
    List.Chain' R (l ++ [b']) := by
  rw [List.chain'_append] at h ⊢
  obtain ⟨h1, _, h3⟩ := h
  refine ⟨h1, List.chain'_singleton _, ?_⟩
  intro x hx y hy
  simp only [List.head?_cons, Option.mem_def, Option.some_inj] at hy
  subst hy
  exact himp x (h3 x hx b (by simp))

/-- The packing loop keeps consecutive closed groups in the overlap
relation (the pending group included). -/
theorem groupFold_chain (cfg : Settings) :
    ∀ (sents : List (List Char)) (st : GroupState),
      List.Chain' (overlapRel cfg.CHUNK_OVERLAP) (st.groups ++ [st.cur]) →
      List.Chain' (overlapRel cfg.CHUNK_OVERLAP)
        ((sents.foldl (groupStep cfg) st).groups ++
          [(sents.foldl (groupStep cfg) st).cur]) := by
  intro sents
  induction sents with
  | nil => exact fun st h => h
  | cons s rest ih =>
    intro st h
    rw [List.foldl_cons]
    refine ih _ ?_
    simp only [groupStep]
    split
    · exact chain'_concat_of h ⟨[s], by simp, rfl⟩
    · refine chain'_concat_mono h ?_
      rintro a ⟨rest', hne, heq⟩
      exact ⟨rest' ++ [s], by simp, by rw [heq, List.append_assoc]⟩

/-- Every group `closedGroups` records relates to its successor by the
trailing-overlap relation. -/
theorem closedGroups_chain (cfg : Settings) (sents : List (List Char)) :
    List.Chain' (overlapRel cfg.CHUNK_OVERLAP) (closedGroups cfg sents) := by
  have h := groupFold_chain cfg sents ⟨[], [], 0⟩ (by simp)
  simp only [closedGroups]
  split
  · exact h
  · exact ((List.chain'_append).1 h).1

/-- The one-step shape of the packing loop when a chunk is closed. -/
theorem stepSentence_close (cfg : Settings) (url : String) (depth : Int)
    {st : PackState} {s : List Char}
    (hcl : cfg.CHUNK_SIZE < st.curLen + s.length ∧ st.cur ≠ []) :
    (stepSentence cfg url depth st s).cur = (buildOverlap cfg.CHUNK_OVERLAP st.cur).1 ++ [s] ∧
    (stepSentence cfg url depth st s).curLen = (buildOverlap cfg.CHUNK_OVERLAP st.cur).2 + s.length ∧
    ∃ e, (stepSentence cfg url depth st s).chunks = st.chunks ++ e ∧
      List.Sublist (e.map (fun c => c.text)) [joinSp st.cur] := by
  by_cases hv : (is_valid_chunk (joinSp st.cur) blacklist_phrases st.seen).1
  · refine ⟨by simp [stepSentence, if_pos hcl], by simp [stepSentence, if_pos hcl],
      [⟨url ++ "::chunk_" ++ toString st.chunkId, joinSp st.cur, url, depth⟩],
      by simp [stepSentence, if_pos hcl, hv], by simp⟩
  · refine ⟨by simp [stepSentence, if_pos hcl], by simp [stepSentence, if_pos hcl],
      [], by simp [stepSentence, if_pos hcl, hv], by simp⟩

/-- The one-step shape of the packing loop when the sentence is appended. -/
theorem stepSentence_open {cfg : Settings} {url : String} {depth : Int}
    {st : PackState} {s : List Char}
    (hcl : ¬ (cfg.CHUNK_SIZE < st.curLen + s.length ∧ st.cur ≠ [])) :
    stepSentence cfg url depth st s =
      ⟨st.cur ++ [s], st.curLen + s.length, st.chunkId, st.seen, st.chunks⟩ := by
  simp only [stepSentence, if_neg hcl]

/-- The packing loop and its validity-erased replay close the same groups in
lockstep: the current group and its counted length agree, and the texts of
the emitted chunks form a sublist of the joined closed groups. -/
theorem pack_group_sim (cfg : Settings) (url : String) (depth : Int) :
    ∀ (sents : List (List Char)) (st : PackState) (gs : List (List (List Char))),
      (sents.foldl (stepSentence cfg url depth) st).cur =
        (sents.foldl (groupStep cfg) ⟨gs, st.cur, st.curLen⟩).cur ∧
      (sents.foldl (stepSentence cfg url depth) st).curLen =
        (sents.foldl (groupStep cfg) ⟨gs, st.cur, st.curLen⟩).curLen ∧
      ∃ newC newG,
        (sents.foldl (stepSentence cfg url depth) st).chunks = st.chunks ++ newC ∧
        (sents.foldl (groupStep cfg) ⟨gs, st.cur, st.curLen⟩).groups = gs ++ newG ∧
        List.Sublist (newC.map (fun c => c.text)) (newG.map joinSp) := by
  intro sents
  induction sents with
  | nil =>
    intro st gs
    exact ⟨rfl, rfl, [], [], by simp, by simp, by simp⟩
  | cons s rest ih =>
    intro st gs
    rw [List.foldl_cons, List.foldl_cons]
    by_cases hcl : cfg.CHUNK_SIZE < st.curLen + s.length ∧ st.cur ≠ []
    · obtain ⟨hc1, hc2, e, he, hesub⟩ := stepSentence_close cfg url depth hcl
      have hg : groupStep cfg ⟨gs, st.cur, st.curLen⟩ s =
          ⟨gs ++ [st.cur], (stepSentence cfg url depth st s).cur,
            (stepSentence cfg url depth st s).curLen⟩ := by
        simp only [groupStep, if_pos hcl]
        rw [hc1, hc2]
      rw [hg]
      obtain ⟨ih1, ih2, newC, newG, ihc, ihg, ihsub⟩ :=
        ih (stepSentence cfg url depth st s) (gs ++ [st.cur])
      refine ⟨ih1, ih2, e ++ newC, st.cur :: newG, ?_, ?_, ?_⟩
      · rw [ihc, he, List.append_assoc]
      · rw [ihg]
        simp
      · rw [List.map_append, List.map_cons]
        exact List.Sublist.append hesub ihsub
    · have hg : groupStep cfg ⟨gs, st.cur, st.curLen⟩ s =
          ⟨gs, (stepSentence cfg url depth st s).cur,
            (stepSentence cfg url depth st s).curLen⟩ := by
        simp only [groupStep, if_neg hcl]
        rw [stepSentence_open hcl]
      rw [hg]
      obtain ⟨ih1, ih2, newC, newG, ihc, ihg, ihsub⟩ :=
        ih (stepSentence cfg url depth st s) gs
      refine ⟨ih1, ih2, newC, newG, ?_, ihg, ihsub⟩
      rw [ihc, stepSentence_open hcl]

/-- The texts `chunk_pages_smart` emits for one page are a sublist of the
joined closed groups of that page. -/
theorem processPage_groups (cfg : Settings) (page : Page) :
    List.Sublist ((chunk_pages_smart cfg [page]).map (fun c => c.text))
      ((closedGroups cfg (pageSentences page)).map joinSp) := by
  show List.Sublist ((processPage cfg ([], []) page).1.map (fun c => c.text)) _
  simp only [processPage]
  split
  · simp
  · split
    · simp
    · split
      · simp
      · rw [show List.filter (fun s => !s.isEmpty)
            (List.map stripWs (splitSentences (normalizeWs page.text))) = pageSentences page from rfl]
        obtain ⟨hc1, hc2, newC, newG, he, hg, hsub⟩ :=
          pack_group_sim cfg page.url page.depth (pageSentences page) ⟨[], 0, 0, [], []⟩ []
        rw [List.nil_append] at he hg
        have hcg : closedGroups cfg (pageSentences page) =
            if (List.foldl (groupStep cfg) ⟨[], [], 0⟩ (pageSentences page)).cur ≠ [] then
              newG ++ [(List.foldl (groupStep cfg) ⟨[], [], 0⟩ (pageSentences page)).cur]
            else newG := by
          simp only [closedGroups]
          rw [hg]
        split
        · rename_i hcur
          split
          · rw [List.map_append, he, hcg, if_pos (by rw [← hc1]; exact hcur), List.map_append]
            refine List.Sublist.append hsub ?_
            rw [← hc1]
            simp
          · rw [he, hcg, if_pos (by rw [← hc1]; exact hcur), List.map_append]
            exact hsub.trans (List.sublist_append_left _ _)
        · rename_i hcur
          rw [he, hcg, if_neg (by rw [← hc1]; exact hcur)]
          exact hsub

/-- C4 (amended): chunks are seeded from the *most recently closed* sentence
group: consecutive closed groups satisfy the overlap relation (the successor
begins with the predecessor's trailing overlap), the trailing overlap is a
suffix of the closed group whose accumulated length is at least
`min CHUNK_OVERLAP (total sentence length of the group)` — not always
`CHUNK_OVERLAP` itself — and the emitted chunks' texts are a sublist of the
joined closed groups; textually, a successor group's join begins with the
join of the overlap sentences. -/
theorem c4_overlap_amended (cfg : Settings) :
    (∀ sents, List.Chain' (overlapRel cfg.CHUNK_OVERLAP) (closedGroups cfg sents)) ∧
    (∀ g, (buildOverlap cfg.CHUNK_OVERLAP g).1 <:+ g ∧
      min cfg.CHUNK_OVERLAP (sumLens g) ≤ sumLens (buildOverlap cfg.CHUNK_OVERLAP g).1) ∧
    (∀ page, List.Sublist ((chunk_pages_smart cfg [page]).map (fun c => c.text))
      ((closedGroups cfg (pageSentences page)).map joinSp)) ∧
    (∀ g g', overlapRel cfg.CHUNK_OVERLAP g g' →
      (buildOverlap cfg.CHUNK_OVERLAP g).1 ≠ [] →
      joinSp (buildOverlap cfg.CHUNK_OVERLAP g).1 <+: joinSp g') := by
  refine ⟨closedGroups_chain cfg, ?_, processPage_groups cfg, ?_⟩
  · intro g
    obtain ⟨h1, h2, h3⟩ := buildOverlap_spec cfg.CHUNK_OVERLAP g
    exact ⟨h1, h2 ▸ h3⟩
  · rintro g g' ⟨rest, hrest, rfl⟩ hov
    rw [joinSp_append hov hrest]
    exact ⟨' ' :: joinSp rest, rfl⟩

/-- C4 amended witness: on `c4Page`'s two closed groups, the second chunk
text indeed begins with the joined trailing overlap of the first group. -/
theorem c4_witness :
    joinSp (buildOverlap defaultSettings.CHUNK_OVERLAP [c4A]).1 <+: joinSp [c4A, c4B] :=
  (c4_overlap_amended defaultSettings).2.2.2 [c4A] [c4A, c4B]
    ⟨[c4B], by decide, by decide⟩ (by decide)

/-- C10: `chunk_pages_smart` can emit chunks longer than `CHUNK_SIZE`: a
single 1124-character sentence is packed whole into one chunk (a sentence is
never split), and a page of 100 ten-character sentences — exactly
`CHUNK_SIZE` characters of sentence text — yields one 1099-character chunk
because the 99 joining spaces are not counted by the packing loop. -/
theorem c10_chunk_exceeds_chunk_size :
    ((chunk_pages_smart defaultSettings [c10PageA]).map fun c => c.text.length) = [1124] ∧
    defaultSettings.CHUNK_SIZE < 1124 ∧
    ((chunk_pages_smart defaultSettings [c10PageB]).map fun c => c.text.length) = [1099] ∧
    defaultSettings.CHUNK_SIZE < 1099 := by
  refine ⟨by decide, by decide, by decide, by decide⟩

/-- C4 counterexample: on `c4Page` the default configuration emits exactly
two chunks (125 and 1026 characters), and the second chunk does NOT begin
with trailing sentences of the first accumulating at least
`CHUNK_OVERLAP = 200` characters — the whole first chunk is only 125
characters long, so the accumulated overlap stops short of 200. -/
theorem c4_counterexample :
    ((chunk_pages_smart defaultSettings [c4Page]).map fun c => c.text.length) = [125, 1026] ∧
    overlapClaimB defaultSettings.CHUNK_OVERLAP
      ((chunk_pages_smart defaultSettings [c4Page]).getD 0 dummyChunk)
      ((chunk_pages_smart defaultSettings [c4Page]).getD 1 dummyChunk) = false := by
  refine ⟨by decide, by decide⟩

/-! ### Retriever theorems -/

/-- Items accepted by `process_results` carry a distance drawn from the
response; in query mode it is below the threshold. -/
theorem mem_process_results {sm : Bool} {thr : ℚ} {raw : StoreResponse}
    {it : RetrievalItem} (h : it ∈ process_results sm thr raw) :
    it.dist ∈ raw.distances.headD [] ∧ (sm = false → it.dist < thr) := by
  simp only [process_results] at h
  split at h
  · simp at h
  · obtain ⟨a, ha, hfa⟩ := List.mem_filterMap.1 h
    obtain ⟨⟨d, q⟩, m⟩ := a
    split at hfa
    · rename_i hcond
      injection hfa with hfa
    
      subst hfa
      refine ⟨((List.of_mem_zip ((List.of_mem_zip ha).1)).2), ?_⟩
      intro hsm
      rcases hcond with hcond | hcond
      · rw [hsm] at hcond; cases hcond
      · exact hcond
    · cases hfa

/-- The distances of the accepted items form a sublist of the response's
distance list (the filter preserves the store's order). -/
theorem process_results_dists_sublist (sm : Bool) (thr : ℚ) (raw : StoreResponse) :
    List.Sublist ((process_results sm thr raw).map fun it => it.dist)
      (raw.distances.headD []) := by
  simp only [process_results]
  split
  · simp
  · generalize raw.documents.headD [] = docs
    generalize raw.distances.headD [] = dists
    generalize raw.metadatas.headD [] = metas
    induction docs generalizing dists metas with
    | nil => simp
    | cons d ds ih =>
      cases dists with
      | nil => simp
      | cons q qs =>
        cases metas with
        | nil => simp
        | cons m ms =>
          simp only [List.zip_cons_cons, List.filterMap_cons]
          split
          · exact List.Sublist.cons q (ih qs ms)
          · rename_i b heq
            split at heq
            · injection heq with heq
              subst heq
              simp only [List.map_cons]
              exact List.Sublist.cons₂ q (ih qs ms)
            · cases heq

/-- In summary mode `process_results` accepts everything. -/
theorem process_results_summary (thr : ℚ) (raw : StoreResponse) :
    process_results true thr raw =
      (((raw.documents.headD []).zip (raw.distances.headD [])).zip
        (raw.metadatas.headD [])).map fun it => ⟨it.1.1, it.2, it.1.2⟩ := by
  simp only [process_results]
  split
  · rename_i hemp
    rw [List.isEmpty_iff] at hemp
    rw [hemp]
    simp
  · refine Eq.trans (List.filterMap_congr fun x _ => if_pos (Or.inl (by trivial))) ?_
    rw [show (fun x : (String × ℚ) × Option String =>
        some (⟨x.1.1, x.2, x.1.2⟩ : RetrievalItem)) =
      some ∘ (fun x => ⟨x.1.1, x.2, x.1.2⟩) from rfl]
    exact congrFun (List.filterMap_eq_map _) _

/-- Mapping the item constructor over the zipped triple recovers the three
parallel lists when they are aligned. -/
theorem zip3_map_fields :
    ∀ (docs : List String) (dists : List ℚ) (metas : List (Option String)),
      docs.length = dists.length → dists.length = metas.length →
      ((((docs.zip dists).zip metas).map fun it =>
          (⟨it.1.1, it.2, it.1.2⟩ : RetrievalItem)).map (fun v => v.text) = docs ∧
       (((docs.zip dists).zip metas).map fun it =>
          (⟨it.1.1, it.2, it.1.2⟩ : RetrievalItem)).map (fun v => v.source) = metas ∧
       (((docs.zip dists).zip metas).map fun it =>
          (⟨it.1.1, it.2, it.1.2⟩ : RetrievalItem)).map (fun v => v.dist) = dists) := by
  intro docs
  induction docs with
  | nil =>
    intro dists metas h1 h2
    have : dists = [] := by simpa using List.length_eq_zero.1 h1.symm
    subst this
    have : metas = [] := List.length_eq_zero.1 h2.symm
    subst this
    simp
  | cons d ds ih =>
    intro dists metas h1 h2
    cases dists with
    | nil => simp at h1
    | cons q qs =>
      cases metas with
      | nil => simp at h2
      | cons m ms =>
        obtain ⟨e1, e2, e3⟩ := ih qs ms (by simpa using h1) (by simpa using h2)
        simp [List.zip_cons_cons, e1, e2, e3]

/-- `retrieveValid` succeeds only through the primary query, either with the
first-pass candidates (fallback not triggered) or with the re-sorted merge of
the two passes. -/
theorem retrieveValid_cases (cfg : Settings)
    (store : String → Nat → Except String StoreResponse)
    (llm : Option String) (q : String) (sm : Bool) (items : List RetrievalItem)
    (h : retrieveValid cfg store llm q sm = .ok items) :
    ∃ resp, store q (if sm = true then cfg.TOP_K_RESULTS + 5 else cfg.TOP_K_RESULTS) = .ok resp ∧
      ((items = process_results sm (effectiveThreshold cfg q) resp ∧
        ¬ (sm = false ∧ (process_results sm (effectiveThreshold cfg q) resp = [] ∨
          bestConfidence (process_results sm (effectiveThreshold cfg q) resp) < 7/20))) ∨
       (∃ resp₂, sm = false ∧
         (process_results sm (effectiveThreshold cfg q) resp = [] ∨
           bestConfidence (process_results sm (effectiveThreshold cfg q) resp) < 7/20) ∧
         store (generate_hyde_doc llm q)
           (if sm = true then cfg.TOP_K_RESULTS + 5 else cfg.TOP_K_RESULTS) = .ok resp₂ ∧
         items = (process_results sm (effectiveThreshold cfg q) resp ++
            (process_results sm (effectiveThreshold cfg q) resp₂).filter
              (fun item => decide (item.text ∉
                (process_results sm (effectiveThreshold cfg q) resp).map fun v => v.text))).mergeSort
            (fun a b => decide (a.dist ≤ b.dist)))) := by
  simp only [retrieveValid] at h
  cases hq : store q (if sm = true then cfg.TOP_K_RESULTS + 5 else cfg.TOP_K_RESULTS) with
  | error e => rw [hq] at h; cases h
  | ok resp =>
    rw [hq] at h
    dsimp only at h
    refine ⟨resp, rfl, ?_⟩
    by_cases hcond : sm = false ∧ (process_results sm (effectiveThreshold cfg q) resp = [] ∨
        bestConfidence (process_results sm (effectiveThreshold cfg q) resp) < 7/20)
    · rw [if_pos hcond] at h
      cases hq2 : store (generate_hyde_doc llm q)
          (if sm = true then cfg.TOP_K_RESULTS + 5 else cfg.TOP_K_RESULTS) with
      | error e => rw [hq2] at h; cases h
      | ok resp₂ =>
        rw [hq2] at h
        dsimp only at h
        injection h with h
        exact Or.inr ⟨resp₂, hcond.1, hcond.2, rfl, h.symm⟩
    · rw [if_neg hcond] at h
      injection h with h
      exact Or.inl ⟨h.symm, hcond⟩

/-- The shape of `retrieve`'s result dict in terms of the candidate list. -/
theorem retrieve_ok_cases (cfg : Settings)
    (store : String → Nat → Except String StoreResponse)
    (llm : Option String) (q : String) (sm : Bool) (r : RetrievalResult)
    (h : retrieve cfg store llm q sm = .ok r) :
    ∃ items, retrieveValid cfg store llm q sm = .ok items ∧
      ((items = [] ∧ r = ⟨false, [], [], none, 0⟩) ∨
       (∃ v₀ rest, items = v₀ :: rest ∧
         r = ⟨true, items.map (fun v => v.text), items.map (fun v => v.source),
           some ((items.filterMap (fun v => v.source)).dedup), 1 - v₀.dist⟩)) := by
  simp only [retrieve] at h
  cases hv : retrieveValid cfg store llm q sm with
  | error e => rw [hv] at h; cases h
  | ok items =>
    rw [hv] at h
    dsimp only at h
    refine ⟨items, rfl, ?_⟩
    cases items with
    | nil =>
      injection h with h
      exact Or.inl ⟨rfl, h.symm⟩
    | cons v₀ rest =>
      simp only [List.head?_cons] at h
      injection h with h
      exact Or.inr ⟨v₀, rest, rfl, h.symm⟩

/-- Under a store whose distance lists are ascending, the final candidate
list of `retrieveValid` is ascending too. -/
theorem retrieveValid_sorted (cfg : Settings)
    (store : String → Nat → Except String StoreResponse)
    (llm : Option String) (q : String) (sm : Bool) (items : List RetrievalItem)
    (hsort : ∀ s k resp, store s k = .ok resp →
      (resp.distances.headD []).Pairwise (· ≤ ·))
    (h : retrieveValid cfg store llm q sm = .ok items) :
    (items.map fun it => it.dist).Pairwise (· ≤ ·) := by
  obtain ⟨resp, hq, hcase | hcase⟩ := retrieveValid_cases cfg store llm q sm items h
  · obtain ⟨rfl, -⟩ := hcase
    exact (hsort _ _ _ hq).sublist (process_results_dists_sublist _ _ _)
  · obtain ⟨resp₂, -, -, -, rfl⟩ := hcase
    have hs := @List.sorted_mergeSort RetrievalItem
      (fun a b => decide (a.dist ≤ b.dist))
      (fun a b c hab hbc => by
        simp only [decide_eq_true_eq] at hab hbc ⊢
        exact le_trans hab hbc)
      (fun a b => by
        simp only [Bool.or_eq_true, decide_eq_true_eq]
        exact le_total a.dist b.dist)
      (process_results sm (effectiveThreshold cfg q) resp ++
        (process_results sm (effectiveThreshold cfg q) resp₂).filter
          (fun item => decide (item.text ∉
            (process_results sm (effectiveThreshold cfg q) resp).map fun v => v.text)))
    rw [List.pairwise_map]
    exact hs.imp fun hab => by simpa using hab

/-- Every final candidate item originates from one of the two `process_results`
passes over a successful store response. -/
theorem retrieveValid_item_origin (cfg : Settings)
    (store : String → Nat → Except String StoreResponse)
    (llm : Option String) (q : String) (sm : Bool) (items : List RetrievalItem)
    (it : RetrievalItem)
    (h : retrieveValid cfg store llm q sm = .ok items) (hit : it ∈ items) :
    ∃ s k resp, store s k = .ok resp ∧
      it ∈ process_results sm (effectiveThreshold cfg q) resp := by
  obtain ⟨resp, hq, hcase | hcase⟩ := retrieveValid_cases cfg store llm q sm items h
  · obtain ⟨rfl, -⟩ := hcase
    exact ⟨q, _, resp, hq, hit⟩
  · obtain ⟨resp₂, -, -, hq2, rfl⟩ := hcase
    rw [List.mem_mergeSort] at hit
    rcases List.mem_append.1 hit with h' | h'
    · exact ⟨q, _, resp, hq, h'⟩
    · exact ⟨generate_hyde_doc llm q, _, resp₂, hq2, (List.mem_filter.1 h').1⟩

/-- Evaluation of the C1 counterexample run. -/
theorem c1_eval :
    retrieve defaultSettings c1Store none "q" true =
      .ok ⟨true, ["doc"], [some "s"], some ["s"], -(1/2)⟩ := by
  have hv : retrieveValid defaultSettings c1Store none "q" true =
      .ok [⟨"doc", some "s", 3/2⟩] := by
    simp only [retrieveValid, c1Store]
    rw [if_neg (by simp)]
    rw [process_results_summary]
    simp [c1Resp]
  simp only [retrieve, hv]
  simp [List.dedup]
  norm_num

/-- C1 counterexample: in summary mode a store distance of 1.5 (legal for
cosine distance in [0,2]) makes `retrieve` report confidence −1/2, outside
[0,1]. -/
theorem c1_counterexample :
    retrieve defaultSettings c1Store none "q" true =
      .ok ⟨true, ["doc"], [some "s"], some ["s"], -(1/2)⟩ ∧
    ¬ (0 ≤ (-(1/2) : ℚ)) :=
  ⟨c1_eval, by norm_num⟩

/-- C1 (amended): with `summary_mode = false`, a base threshold at most 1 and
a store that only reports non-negative distances, the returned confidence
lies in [0,1].  In summary mode the bound fails (see `c1_counterexample`). -/
theorem c1_confidence_amended (cfg : Settings)
    (store : String → Nat → Except String StoreResponse)
    (llm : Option String) (q : String) (r : RetrievalResult)
    (hthr : cfg.DISTANCE_THRESHOLD ≤ 1)
    (hpos : ∀ s k resp, store s k = .ok resp → ∀ d ∈ resp.distances.headD [], 0 ≤ d)
    (h : retrieve cfg store llm q false = .ok r) :
    0 ≤ r.confidence ∧ r.confidence ≤ 1 := by
  obtain ⟨items, hv, hcase | hcase⟩ := retrieve_ok_cases cfg store llm q false r h
  · obtain ⟨-, rfl⟩ := hcase
    norm_num
  · obtain ⟨v₀, rest, rfl, rfl⟩ := hcase
    obtain ⟨s, k, resp, hq, hpr⟩ := retrieveValid_item_origin cfg store llm q false _ v₀ hv
      (List.mem_cons_self _ _)
    obtain ⟨hd, hlt⟩ := mem_process_results hpr
    have h0 : 0 ≤ v₀.dist := hpos s k resp hq v₀.dist hd
    have h1 : v₀.dist < effectiveThreshold cfg q := hlt rfl
    have h2 : effectiveThreshold cfg q ≤ cfg.DISTANCE_THRESHOLD := by
      simp only [effectiveThreshold]
      split
      · linarith
      · linarith
    constructor
    · show 0 ≤ 1 - v₀.dist
      linarith
    · show 1 - v₀.dist ≤ 1
      linarith

/-- Evaluation of the C1 witness run. -/
theorem c1w_eval :
    retrieve defaultSettings c1wStore none "alpha beta gamma delta" false =
      .ok ⟨true, ["da"], [some "sa"], some ["sa"], 1/2⟩ := by
  have hthr : effectiveThreshold defaultSettings "alpha beta gamma delta" = 3/4 := by
    simp only [effectiveThreshold]
    rw [if_neg (by decide)]
    rfl
  have hproc : process_results false (3/4) c1wResp = [⟨"da", some "sa", 1/2⟩] := by
    simp only [process_results, c1wResp]
    norm_num [List.filterMap_cons]
  have hv : retrieveValid defaultSettings c1wStore none "alpha beta gamma delta" false =
      .ok [⟨"da", some "sa", 1/2⟩] := by
    simp only [retrieveValid, c1wStore]
    rw [hthr, hproc]
    rw [if_neg (fun hc => by
      rcases hc with ⟨-, hc | hc⟩
      · simp at hc
      · simp only [bestConfidence, List.head?_cons] at hc
        norm_num at hc)]
  simp only [retrieve, hv]
  simp [List.dedup]
  norm_num

/-- C1 witness: a concrete in-range run of the amended bound. -/
theorem c1_witness :
    0 ≤ (RetrievalResult.mk true ["da"] [some "sa"] (some ["sa"]) (1/2)).confidence ∧
    (RetrievalResult.mk true ["da"] [some "sa"] (some ["sa"]) (1/2)).confidence ≤ 1 :=
  c1_confidence_amended defaultSettings c1wStore none "alpha beta gamma delta" _
    (by norm_num [defaultSettings])
    (by
      intro s k resp hresp d hd
      injection hresp with hresp
      subst hresp
      simp only [c1wResp] at hd
      simp at hd
      rw [hd]
      norm_num)
    c1w_eval

/-- Evaluation of the C2 counterexample run: the store ranks the distances
out of order, no fallback triggers, and the reported confidence comes from
the FIRST accepted item (distance 0.6), not the minimum (0.2). -/
theorem c2_eval :
    retrieve defaultSettings c2Store none "alpha beta gamma delta" false =
      .ok ⟨true, ["d1", "d2"], [some "s1", some "s2"], some ["s1", "s2"], 2/5⟩ := by
  have hthr : effectiveThreshold defaultSettings "alpha beta gamma delta" = 3/4 := by
    simp only [effectiveThreshold]
    rw [if_neg (by decide)]
    rfl
  have hproc : process_results false (3/4) c2Resp =
      [⟨"d1", some "s1", 3/5⟩, ⟨"d2", some "s2", 1/5⟩] := by
    simp only [process_results, c2Resp]
    norm_num [List.filterMap_cons]
  have hv : retrieveValid defaultSettings c2Store none "alpha beta gamma delta" false =
      .ok [⟨"d1", some "s1", 3/5⟩, ⟨"d2", some "s2", 1/5⟩] := by
    simp only [retrieveValid, c2Store]
    rw [hthr, hproc]
    rw [if_neg (fun hc => by
      rcases hc with ⟨-, hc | hc⟩
      · simp at hc
      · simp only [bestConfidence, List.head?_cons] at hc
        norm_num at hc)]
  simp only [retrieve, hv]
  simp [List.dedup]
  norm_num

/-- C2 counterexample: for a store response whose distances are not in
ascending order, the returned confidence (2/5) differs from
`1 - min(distance)` (4/5) — the code only re-sorts after a fallback merge. -/
theorem c2_counterexample :
    retrieve defaultSettings c2Store none "alpha beta gamma delta" false =
      .ok ⟨true, ["d1", "d2"], [some "s1", some "s2"], some ["s1", "s2"], 2/5⟩ ∧
    ¬ ((2 : ℚ)/5 = 1 - 1/5) :=
  ⟨c2_eval, by norm_num⟩

/-- C2 (amended): whenever every store response lists its distances in
ascending order — the interface's "ranked list" contract — a `relevant=true`
result's confidence equals `1 - min(distance)` over the returned items, which
is the distance of the single best accepted item. -/
theorem c2_confidence_min_dist_amended (cfg : Settings)
    (store : String → Nat → Except String StoreResponse)
    (llm : Option String) (q : String) (sm : Bool) (r : RetrievalResult)
    (hsort : ∀ s k resp, store s k = .ok resp →
      (resp.distances.headD []).Pairwise (· ≤ ·))
    (h : retrieve cfg store llm q sm = .ok r) (hrel : r.relevant = true) :
    ∃ items, retrieveValid cfg store llm q sm = .ok items ∧
      r.contexts = items.map (fun v => v.text) ∧
      (1 - r.confidence) ∈ items.map (fun v => v.dist) ∧
      ∀ d ∈ items.map (fun v => v.dist), 1 - r.confidence ≤ d := by
  obtain ⟨items, hv, hcase | hcase⟩ := retrieve_ok_cases cfg store llm q sm r h
  · obtain ⟨-, rfl⟩ := hcase
    simp at hrel
  · obtain ⟨v₀, rest, rfl, rfl⟩ := hcase
    have hsorted := retrieveValid_sorted cfg store llm q sm _ hsort hv
    have hself : (1 : ℚ) - (1 - v₀.dist) = v₀.dist := by ring
    refine ⟨v₀ :: rest, hv, rfl, ?_, ?_⟩
    · show (1 - (1 - v₀.dist)) ∈ _
      rw [hself]
      exact List.mem_map_of_mem _ (List.mem_cons_self _ _)
    · intro d hd
      show 1 - (1 - v₀.dist) ≤ d
      rw [hself]
      rw [List.map_cons] at hsorted hd
      rcases List.mem_cons.1 hd with rfl | hd'
      · exact le_refl _
      · exact List.rel_of_pairwise_cons hsorted hd'

/-- C2 witness: a sorted store run where the conclusion is concrete. -/
theorem c2_witness :
    ∃ items, retrieveValid defaultSettings c2wStore none "alpha beta gamma delta" false =
        .ok items ∧
      (RetrievalResult.mk true ["d1", "d2"] [some "s1", some "s2"]
        (some ["s1", "s2"]) (2/5)).contexts = items.map (fun v => v.text) ∧
      (1 - (RetrievalResult.mk true ["d1", "d2"] [some "s1", some "s2"]
        (some ["s1", "s2"]) (2/5)).confidence) ∈ items.map (fun v => v.dist) ∧
      ∀ d ∈ items.map (fun v => v.dist),
        1 - (RetrievalResult.mk true ["d1", "d2"] [some "s1", some "s2"]
          (some ["s1", "s2"]) (2/5)).confidence ≤ d := by
  refine c2_confidence_min_dist_amended defaultSettings c2wStore none
    "alpha beta gamma delta" false _ ?_ ?_ rfl
  · intro s k resp hresp
    injection hresp with hresp
    subst hresp
    simp only [c2wResp]
    simp [List.pairwise_cons]
    norm_num
  · have hthr : effectiveThreshold defaultSettings "alpha beta gamma delta" = 3/4 := by
      simp only [effectiveThreshold]
      rw [if_neg (by decide)]
      rfl
    have hproc : process_results false (3/4) c2wResp =
        [⟨"d1", some "s1", 3/5⟩, ⟨"d2", some "s2", 7/10⟩] := by
      simp only [process_results, c2wResp]
      norm_num [List.filterMap_cons]
    have hv : retrieveValid defaultSettings c2wStore none "alpha beta gamma delta" false =
        .ok [⟨"d1", some "s1", 3/5⟩, ⟨"d2", some "s2", 7/10⟩] := by
      simp only [retrieveValid, c2wStore]
      rw [hthr, hproc]
      rw [if_neg (fun hc => by
      rcases hc with ⟨-, hc | hc⟩
      · simp at hc
      · simp only [bestConfidence, List.head?_cons] at hc
        norm_num at hc)]
    simp only [retrieve, hv]
    simp [List.dedup]
    norm_num

/-- C3: with `summary_mode = true` the retriever never filters by distance
and never invokes the HyDE fallback: the result is the same for every
generator outcome and every store agreeing on the one summary query, and a
non-empty, index-aligned response yields `relevant = true` with ALL returned
documents as contexts (in store order) and their sources aligned. -/
theorem c3_summary_mode_accepts_all (cfg : Settings)
    (store : String → Nat → Except String StoreResponse)
    (llm : Option String) (q : String) (resp : StoreResponse)
    (docs : List String) (dists : List ℚ) (metas : List (Option String))
    (hresp : store q (cfg.TOP_K_RESULTS + 5) = .ok resp)
    (hdocs : resp.documents = [docs]) (hdists : resp.distances = [dists])
    (hmetas : resp.metadatas = [metas])
    (h1 : docs.length = dists.length) (h2 : dists.length = metas.length)
    (hne : docs ≠ []) :
    (∀ (llm' : Option String) (store' : String → Nat → Except String StoreResponse),
      store' q (cfg.TOP_K_RESULTS + 5) = .ok resp →
      retrieve cfg store' llm' q true = retrieve cfg store llm q true) ∧
    ∃ r, retrieve cfg store llm q true = .ok r ∧ r.relevant = true ∧
      r.contexts = docs ∧ r.context_sources = metas := by
  have hval : ∀ (store' : String → Nat → Except String StoreResponse)
      (llm' : Option String), store' q (cfg.TOP_K_RESULTS + 5) = .ok resp →
      retrieveValid cfg store' llm' q true =
        .ok (((docs.zip dists).zip metas).map fun it => ⟨it.1.1, it.2, it.1.2⟩) := by
    intro store' llm' hs
    simp only [retrieveValid, if_true]
    rw [hs]
    dsimp only
    rw [if_neg (by simp)]
    rw [process_results_summary, hdocs, hdists, hmetas]
    simp
  obtain ⟨e1, e2, e3⟩ := zip3_map_fields docs dists metas h1 h2
  constructor
  · intro llm' store' hs
    simp only [retrieve, hval store' llm' hs, hval store llm hresp]
  · have hv := hval store llm hresp
    simp only [retrieve, hv]
    cases hi : ((docs.zip dists).zip metas).map
        (fun it => (⟨it.1.1, it.2, it.1.2⟩ : RetrievalItem)) with
    | nil =>
      rw [hi] at e1
      simp at e1
      exact absurd e1 hne
    | cons i is =>
      rw [hi] at e1 e2
      exact ⟨_, rfl, rfl, e1, e2⟩

/-- C3 witness: both distances (2 and 1.5) exceed every threshold, yet both
documents are returned as contexts and the generator is irrelevant. -/
theorem c3_witness :
    (∀ (llm' : Option String) (store' : String → Nat → Except String StoreResponse),
      store' "please summarize" (defaultSettings.TOP_K_RESULTS + 5) = .ok c3Resp →
      retrieve defaultSettings store' llm' "please summarize" true =
        retrieve defaultSettings c3Store none "please summarize" true) ∧
    ∃ r, retrieve defaultSettings c3Store none "please summarize" true = .ok r ∧
      r.relevant = true ∧ r.contexts = ["p", "q"] ∧
      r.context_sources = [some "u", none] :=
  c3_summary_mode_accepts_all defaultSettings c3Store none "please summarize" c3Resp
    ["p", "q"] [2, 3/2] [some "u", none] rfl rfl rfl rfl rfl rfl (by simp)

/-- Evaluation of the empty-store run shared by the C5 counterexample and
witness: both passes return nothing, so the final candidate list is empty. -/
theorem c5_eval :
    retrieveValid defaultSettings c5Store none "alpha beta gamma delta" false =
      .ok [] := by
  have hproc : ∀ thr, process_results false thr c5Resp = [] := by
    intro thr
    simp [process_results, c5Resp]
  simp only [retrieveValid, c5Store]
  rw [hproc]
  rw [if_pos ⟨trivial, Or.inl rfl⟩]
  simp

/-- C5 counterexample: the empty-candidate result dict has NO `sources` key
(modelled as `sources = none`), so it does not carry all five fields of the
data model. -/
theorem c5_counterexample :
    retrieve defaultSettings c5Store none "alpha beta gamma delta" false =
      .ok ⟨false, [], [], none, 0⟩ ∧
    (RetrievalResult.mk false [] [] none 0).sources = none := by
  constructor
  · simp only [retrieve, c5_eval]
    rfl
  · rfl

/-- C5 (amended): when the final candidate set is empty, `retrieve` returns
`relevant = false`, empty contexts, empty context_sources and confidence 0,
but OMITS the `sources` key (lines 69–75 of `retriever.py` build a four-field
dict). -/
theorem c5_empty_result_amended (cfg : Settings)
    (store : String → Nat → Except String StoreResponse)
    (llm : Option String) (q : String) (sm : Bool)
    (h : retrieveValid cfg store llm q sm = .ok []) :
    retrieve cfg store llm q sm = .ok ⟨false, [], [], none, 0⟩ := by
  simp only [retrieve, h]
  rfl

/-- C5 witness: the amended description on the concrete empty-store run. -/
theorem c5_witness :
    retrieve defaultSettings c5Store none "alpha beta gamma delta" false =
      .ok ⟨false, [], [], none, 0⟩ :=
  c5_empty_result_amended defaultSettings c5Store none "alpha beta gamma delta" false
    c5_eval

/-- Evaluation of the C8 example run. -/
theorem c8_eval (llm : Option String) :
    retrieve defaultSettings c8Store llm "What is it?" false =
      .ok ⟨true, ["d1"], [some "s1"], some ["s1"], 2/5⟩ := by
  have hthr : effectiveThreshold defaultSettings "What is it?" = 7/10 := by
    simp only [effectiveThreshold]
    rw [if_pos (by decide)]
    norm_num [defaultSettings]
  have hproc : process_results false (7/10) c8Resp = [⟨"d1", some "s1", 3/5⟩] := by
    simp only [process_results, c8Resp]
    norm_num [List.filterMap_cons]
  have hv : retrieveValid defaultSettings c8Store llm "What is it?" false =
      .ok [⟨"d1", some "s1", 3/5⟩] := by
    simp only [retrieveValid, c8Store]
    rw [hthr, hproc]
    rw [if_neg (fun hc => by
      rcases hc with ⟨-, hc | hc⟩
      · simp at hc
      · simp only [bestConfidence, List.head?_cons] at hc
        norm_num at hc)]
  simp only [retrieve, hv]
  simp [List.dedup]
  norm_num

/-- C8: queries of fewer than 4 whitespace tokens get the threshold relaxed
by exactly 0.05; concretely, "What is it?" (3 tokens) against base 0.75 gives
effective threshold 0.70, distances [0.60, 0.80] admit exactly the first
document with confidence 0.40, and since 0.40 ≥ 0.35 no HyDE fallback runs
(the result is the same for every generator outcome). -/
theorem c8_short_query_threshold :
    (∀ (cfg : Settings) (q : String), (splitWs q).length < 4 →
      effectiveThreshold cfg q = cfg.DISTANCE_THRESHOLD - 1/20) ∧
    effectiveThreshold defaultSettings "What is it?" = 7/10 ∧
    (∀ llm, retrieve defaultSettings c8Store llm "What is it?" false =
      .ok ⟨true, ["d1"], [some "s1"], some ["s1"], 2/5⟩) ∧
    ((7 : ℚ)/20 ≤ 2/5) := by
  refine ⟨?_, ?_, c8_eval, by norm_num⟩
  · intro cfg q hq
    simp only [effectiveThreshold]
    rw [if_pos hq]
  · simp only [effectiveThreshold]
    rw [if_pos (by decide)]
    norm_num [defaultSettings]

/-- C8 witness: the threshold relaxation at another short query. -/
theorem c8_witness :
    (splitWs "hi there").length < 4 ∧
    effectiveThreshold defaultSettings "hi there" =
      defaultSettings.DISTANCE_THRESHOLD - 1/20 :=
  ⟨by decide, c8_short_query_threshold.1 defaultSettings "hi there" (by decide)⟩

/-- C9: if the fallback is triggered and the generator's underlying call
failed (`llm = none`, in which case `generate_hyde_doc` returns the question
unchanged — the `except` in `generator.py` swallows the error), `retrieve`
still returns a result through the same store, and every first-pass accepted
document text appears among the returned contexts. -/
theorem c9_hyde_failure_soft (cfg : Settings)
    (store : String → Nat → Except String StoreResponse)
    (q : String) (resp : StoreResponse)
    (hq : store q cfg.TOP_K_RESULTS = .ok resp)
    (htrig : process_results false (effectiveThreshold cfg q) resp = [] ∨
      bestConfidence (process_results false (effectiveThreshold cfg q) resp) < 7/20) :
    ∃ r, retrieve cfg store none q false = .ok r ∧
      ∀ it ∈ process_results false (effectiveThreshold cfg q) resp,
        it.text ∈ r.contexts := by
  have hv : retrieveValid cfg store none q false =
      .ok ((process_results false (effectiveThreshold cfg q) resp ++
        (process_results false (effectiveThreshold cfg q) resp).filter
          (fun item => decide (item.text ∉
            (process_results false (effectiveThreshold cfg q) resp).map fun v => v.text))).mergeSort
        (fun a b => decide (a.dist ≤ b.dist))) := by
    simp only [retrieveValid]
    rw [if_neg (by simp), hq]
    dsimp only
    rw [if_pos ⟨trivial, htrig⟩]
    simp only [generate_hyde_doc]
    rw [hq]
  cases hm : (process_results false (effectiveThreshold cfg q) resp ++
      (process_results false (effectiveThreshold cfg q) resp).filter
        (fun item => decide (item.text ∉
          (process_results false (effectiveThreshold cfg q) resp).map fun v => v.text))).mergeSort
      (fun a b => decide (a.dist ≤ b.dist)) with
  | nil =>
    refine ⟨⟨false, [], [], none, 0⟩, ?_, ?_⟩
    · rw [retrieve]
      rw [hv, hm]
      rfl
    · intro it hit
      exfalso
      have hlen := congrArg List.length hm
      rw [List.length_mergeSort, List.length_append, List.length_nil] at hlen
      have h0 : process_results false (effectiveThreshold cfg q) resp = [] :=
        List.length_eq_zero.1 (by omega)
      rw [h0] at hit
      cases hit
  | cons i is =>
    refine ⟨⟨true, (i :: is).map (fun v => v.text), (i :: is).map (fun v => v.source),
      some (((i :: is).filterMap fun v => v.source).dedup), 1 - i.dist⟩, ?_, ?_⟩
    · rw [retrieve]
      rw [hv, hm]
      rfl
    · intro it hit
      show it.text ∈ (i :: is).map (fun v => v.text)
      rw [← hm]
      refine List.mem_map_of_mem _ ?_
      rw [List.mem_mergeSort]
      exact List.mem_append_left _ hit

/-- C9 witness: distance 0.70 is accepted but yields confidence 0.30 < 0.35,
the fallback runs with the failed generator, and the first-pass document is
still among the contexts. -/
theorem c9_witness :
    ∃ r, retrieve defaultSettings c9Store none "tell me about the thing please" false =
        .ok r ∧
      ∀ it ∈ process_results false
          (effectiveThreshold defaultSettings "tell me about the thing please") c9Resp,
        it.text ∈ r.contexts := by
  refine c9_hyde_failure_soft defaultSettings c9Store
    "tell me about the thing please" c9Resp rfl (Or.inr ?_)
  have hthr : effectiveThreshold defaultSettings "tell me about the thing please" = 3/4 := by
    simp only [effectiveThreshold]
    rw [if_neg (by decide)]
    rfl
  rw [hthr]
  have hproc : process_results false (3/4) c9Resp = [⟨"dx", some "sx", 7/10⟩] := by
    simp only [process_results, c9Resp]
    norm_num [List.filterMap_cons]
  rw [hproc]
  simp only [bestConfidence, List.head?_cons]
  norm_num

end RAGex
